import Mathlib

/-!
Shallow embedding of the sparse matrix component of this repository
(`src/include/Matrix.hpp`, `pacs::algebra::Matrix<T, O>`), with the element
type `T` instantiated at `ℚ` (exact rationals standing for the floating
scalars) and the debug build modeled (the repository's Makefile leaves
`NDEBUG` undefined, so the `assert`-guarded bounds, compression and
tolerance checks are active; asserts are modeled as explicit failures).

The `std::map<std::array<std::size_t,2>, T>` coordinate body is embedded as
an association list sorted by the lexicographic key order; map iterators are
modeled as suffixes of that list, with `[]` playing the role of `end()`.
`std::vector` reads are `List.getD` / `List.get?` as noted per definition.
-/

namespace Pacs

/-- Storage orderings: `enum class Order {Row, Column}` of `main.hpp`. -/
inductive Order where
  | Row : Order
  | Column : Order
deriving DecidableEq

/-- The contract violations of section 7 of the design (modeled from the
asserts of `Matrix.hpp`). -/
inductive MatErr where
  | OutOfBounds : MatErr
  | CompressedMutation : MatErr
  | DimensionMismatch : MatErr
  | InvalidDimension : MatErr
deriving DecidableEq

/-- Coordinate-map keys: `std::array<std::size_t, 2>` (primary, secondary). -/
abbrev Key := Nat × Nat

/-- One stored coordinate-map entry. -/
abbrev Entry := Key × ℚ

/-- Lexicographic key comparison, `std::array`'s `operator<`. -/
def keyLt (a b : Key) : Bool :=
  decide (a.1 < b.1 ∨ (a.1 = b.1 ∧ a.2 < b.2))

/-- `std::map` insert-or-assign (`elements[key] = value`) on the sorted
association list. -/
def mapInsert (k : Key) (v : ℚ) : List Entry → List Entry
  | [] => [(k, v)]
  | e :: rest =>
    if keyLt k e.1 then (k, v) :: e :: rest
    else if k = e.1 then (k, v) :: rest
    else e :: mapInsert k v rest

/-- `std::map::find`-style lookup on the association list. -/
def lookupKey (k : Key) : List Entry → Option ℚ
  | [] => none
  | e :: rest => if e.1 = k then some e.2 else lookupKey k rest

/-- `std::map::contains`. -/
def mapContains (k : Key) (l : List Entry) : Bool :=
  l.any (fun e => decide (e.1 = k))

/-- `std::map::operator[]` (default-inserts when the key is absent); returns
the read value together with the possibly mutated map. -/
def mapSubscript (k : Key) (l : List Entry) : ℚ × List Entry :=
  match lookupKey k l with
  | some v => (v, l)
  | none => (0, mapInsert k 0 l)

/-- `std::map::lower_bound`, with iterators modeled as suffixes of the
sorted list (`[]` is `end()`). -/
def lowerB (k : Key) : List Entry → List Entry
  | [] => []
  | e :: rest => if keyLt e.1 k then lowerB k rest else e :: rest

/-- The tolerance macro `TOLERANCE_PACS = 1E-10` of `Matrix.hpp`. -/
def TOL : ℚ := 1 / 10000000000

/-- `std::abs` on the embedded scalars. -/
def qabs (x : ℚ) : ℚ := if x < 0 then -x else x

/-- Dense-buffer accumulation `buffer[i] += x` (`std::vector` writes are
in-bounds in every use the source makes of them; `List.set` ignores an
out-of-range index just as the model's `getD` defaults it). -/
def addAt (l : List ℚ) (i : Nat) (x : ℚ) : List ℚ :=
  l.set i (l.getD i 0 + x)

/-- The sparse matrix class of `Matrix.hpp`. Exactly one storage body is
meaningful at a time: the coordinate map `elements` when `compressed` is
false, the `inner`/`outer`/`values` triple when it is true. -/
structure Matrix where
  first : Nat
  second : Nat
  compressed : Bool := false
  elements : List Entry := []
  inner : List Nat := []
  outer : List Nat := []
  values : List ℚ := []
deriving DecidableEq

/-- `Matrix::rows()`: `first` under row ordering, `second` under column
ordering. -/
def rows (o : Order) (M : Matrix) : Nat :=
  match o with
  | .Row => M.first
  | .Column => M.second

/-- `Matrix::columns()`: `second` under row ordering, `first` under column
ordering. -/
def columns (o : Order) (M : Matrix) : Nat :=
  match o with
  | .Row => M.second
  | .Column => M.first

/-- `Matrix::insert` (debug build: the bounds assert, the compression assert
and the tolerance filter are active, in the source's order). The result is
the post-state paired with the contract violation, if any; a violation fires
before any mutation, so the post-state is then the prior state. -/
def insert (M : Matrix) (j k : Nat) (x : ℚ) : Matrix × Option MatErr :=
  if ¬ (j < M.first ∧ k < M.second) then (M, some .OutOfBounds)
  else if M.compressed then (M, some .CompressedMutation)
  else if TOL < qabs x then ({ M with elements := mapInsert (j, k) x M.elements }, none)
  else (M, none)

/-- `Matrix::insert_range` (debug build). The source's tolerance check reads
`elements[j]` (the row counter, not the flat index), and the flat index is
`j * (end[1] - start[1]) + k` with no subtraction of the `start` offset;
both are modeled exactly as written. Buffer reads are `List.getD`. -/
def insert_range (M : Matrix) (s e : Key) (els : List ℚ) : Matrix × Option MatErr :=
  if M.compressed then (M, some .CompressedMutation)
  else if ¬ (s.1 < e.1 ∧ e.1 < M.first ∧ s.2 < e.2 ∧ e.2 < M.second
      ∧ (e.2 - s.2) * (e.1 - s.1) = els.length) then (M, some .OutOfBounds)
  else
    ({ M with elements :=
      (List.range' s.1 (e.1 - s.1)).foldl (fun acc j =>
        (List.range' s.2 (e.2 - s.2)).foldl (fun acc2 k =>
          if TOL < qabs (els.getD j 0)
          then mapInsert (j, k) (els.getD (j * (e.2 - s.2) + k) 0) acc2
          else acc2) acc) M.elements }, none)

/-- One line of `Matrix::compress`: iterate from the lower bound of
`current` while `(*it).first < (*(elements.lower_bound(next))).first`.
Iterators are suffixes. When either side is `end()` the source dereferences
the past-the-end iterator - undefined behaviour, tracked by `scanSafe` and
`compressSafe`; this model resolves that comparison to the source's evident
intent (spec 4.3: iterate exactly the entries of the line): the loop stops
when `it` is `end()` and keeps running while only the bound is `end()`,
visiting the whole line - the largest entry set any resolution of the
dereference can visit. -/
def scanLine (bound : List Entry) : List Entry → List Entry
  | [] => []
  | e :: rest =>
    match bound with
    | [] => e :: scanLine [] rest
    | b :: _ => if keyLt e.1 b.1 then e :: scanLine bound rest else []

/-- `Matrix::compress` (debug build, tolerance filter active). For each
primary line `p` (the source's `j - 1`, with `current = {p, 0}` and
`next = {p + 1, 0}`), the entries scanned by the loop are kept when above
tolerance; `outer`/`values` collect them in line order and `inner[j]` is the
running count of kept entries, starting from `inner[0] = 0`. The last
line's loop condition dereferences `end()` in the source (see
`compressSafe`); per `scanLine` this model processes every line in full,
the largest compressed body any resolution of that dereference can
produce. -/
def compress (M : Matrix) : Matrix :=
  if M.compressed then M
  else
    let kept := fun p =>
      (scanLine (lowerB (p + 1, 0) M.elements) (lowerB (p, 0) M.elements)).filter
        (fun e => TOL < qabs e.2)
    { M with
      compressed := true
      elements := []
      inner := (List.range (M.first + 1)).map
        (fun j => ((List.range j).map (fun p => (kept p).length)).sum)
      outer := ((List.range M.first).map (fun p => (kept p).map (fun e => e.1.2))).flatten
      values := ((List.range M.first).map (fun p => (kept p).map (fun e => e.2))).flatten }

/-- Does every dereference performed by the loop condition of
`Matrix::compress` hit a valid map position? The condition dereferences
both `it` and `elements.lower_bound(next)`; either being `end()` makes the
corresponding evaluation dereference the past-the-end iterator. -/
def scanSafe (bound : List Entry) : List Entry → Bool
  | [] => false
  | e :: rest =>
    match bound with
    | [] => false
    | b :: _ => if keyLt e.1 b.1 then scanSafe bound rest else true

/-- All loop-condition dereferences of `Matrix::compress` over all primary
lines are at valid positions. -/
def compressSafe (M : Matrix) : Bool :=
  (List.range M.first).all
    (fun p => scanSafe (lowerB (p + 1, 0) M.elements) (lowerB (p, 0) M.elements))

/-- `Matrix::uncompress` (debug build, tolerance filter active). Vector
reads are `List.getD`; the source indexes within bounds for any well-formed
compressed body. -/
def uncompress (M : Matrix) : Matrix :=
  if ¬ M.compressed then M
  else
    { M with
      compressed := false
      elements := (List.range (M.inner.length - 1)).foldl (fun acc j =>
        (List.range' (M.inner.getD j 0) (M.inner.getD (j + 1) 0 - M.inner.getD j 0)).foldl
          (fun acc2 p =>
            if TOL < qabs (M.values.getD p 0)
            then mapInsert (j, M.outer.getD p 0) (M.values.getD p 0) acc2
            else acc2) acc) []
      inner := []
      outer := []
      values := [] }

/-- `std::ranges::max` over a dense buffer (the source's buffers are
nonempty since `first > 0`; the empty case is given a junk value). -/
def rangesMax (l : List ℚ) : ℚ :=
  match l with
  | [] => 0
  | h :: t => t.foldl (fun a b => if a < b then b else a) h

/-- `Matrix::norm<Infinity>` in the default sequential build. The
uncompressed branch accumulates `std::abs(value)` into a buffer sized to the
primary dimension; the compressed branch accumulates `sum += values[k]`
per line — without `std::abs`, exactly as the source writes it — and keeps
the running maximum against an initial `0.0`. -/
def normInfinity (M : Matrix) : ℚ :=
  if ¬ M.compressed then
    rangesMax (M.elements.foldl (fun s e => addAt s e.1.1 (qabs e.2))
      (List.replicate M.first 0))
  else
    (List.range (M.inner.length - 1)).foldl (fun mx j =>
      let s := (List.range' (M.inner.getD j 0) (M.inner.getD (j + 1) 0 - M.inner.getD j 0)).foldl
        (fun a p => a + M.values.getD p 0) 0
      if mx < s then s else mx) 0

/-- `Matrix::operator*(const std::vector<T> &)` (debug build: the size
assert is the failure case). Every dense loop is written with the source's
own bound; in particular both compressed branches iterate
`j < result.size()`. -/
def matVec (o : Order) (M : Matrix) (v : List ℚ) : Option (List ℚ) :=
  if v.length ≠ columns o M then none
  else
    let r0 := List.replicate (rows o M) (0 : ℚ)
    some (match o, M.compressed with
      | .Row, false =>
        M.elements.foldl (fun r e => addAt r e.1.1 (e.2 * v.getD e.1.2 0)) r0
      | .Row, true =>
        (List.range r0.length).foldl (fun r j =>
          (List.range' (M.inner.getD j 0) (M.inner.getD (j + 1) 0 - M.inner.getD j 0)).foldl
            (fun r2 i => addAt r2 j (M.values.getD i 0 * v.getD (M.outer.getD i 0) 0)) r) r0
      | .Column, false =>
        M.elements.foldl (fun r e => addAt r e.1.2 (e.2 * v.getD e.1.1 0)) r0
      | .Column, true =>
        (List.range r0.length).foldl (fun r j =>
          (List.range' (M.inner.getD j 0) (M.inner.getD (j + 1) 0 - M.inner.getD j 0)).foldl
            (fun r2 i => addAt r2 (M.outer.getD i 0) (M.values.getD i 0 * v.getD j 0)) r) r0)

/-- Dense line extraction from a compressed operand of the matrix product:
`line[outer[h]] = values[h]` over the line's compressed range. -/
def denseLineC (M : Matrix) (j size : Nat) : List ℚ :=
  (List.range' (M.inner.getD j 0) (M.inner.getD (j + 1) 0 - M.inner.getD j 0)).foldl
    (fun r h => r.set (M.outer.getD h 0) (M.values.getD h 0)) (List.replicate size 0)

/-- The iterator walk of the uncompressed line extraction of the matrix
product: from `elements.lower_bound({j, 0})` while `(*it).first < {j+1, 0}`,
writing `line[key[1]] = value`, with the source's ad hoc break at the map's
last key (`stopKey`); a dereference of `end()` in the condition is resolved
as in `scanLine`. -/
def lineScan (stopKey : Key) (j : Nat) : List Entry → List ℚ → List ℚ
  | [], r => r
  | e :: rest, r =>
    if keyLt e.1 (j + 1, 0) then
      let r2 := r.set e.1.2 e.2
      if e.1 = stopKey then r2 else lineScan stopKey j rest r2
    else r

/-- Dense line extraction from an uncompressed operand of the matrix
product. -/
def denseLineU (M : Matrix) (stopKey : Key) (j size : Nat) : List ℚ :=
  lineScan stopKey j (lowerB (j, 0) M.elements) (List.replicate size 0)

/-- Linear combination against a compressed operand `B` of the matrix
product: for each line `k` below the source's loop bound `lines`,
`product[B.outer[h]] += line[k] * B.values[h]` over that line's range. -/
def combineC (B : Matrix) (lines : Nat) (line : List ℚ) (size : Nat) : List ℚ :=
  (List.range lines).foldl (fun pr k =>
    (List.range' (B.inner.getD k 0) (B.inner.getD (k + 1) 0 - B.inner.getD k 0)).foldl
      (fun pr2 h => addAt pr2 (B.outer.getD h 0) (line.getD k 0 * B.values.getD h 0)) pr)
    (List.replicate size 0)

/-- Accumulation against an uncompressed operand in the row-ordered product:
`product[key[1]] += line[key[0]] * value` over all stored entries. -/
def combineRowU (B : Matrix) (line : List ℚ) (size : Nat) : List ℚ :=
  B.elements.foldl (fun pr e => addAt pr e.1.2 (line.getD e.1.1 0 * e.2))
    (List.replicate size 0)

/-- Accumulation against an uncompressed operand in the column-ordered
product: `product[key[0]] += line[key[1]] * value` over all stored
entries. -/
def combineColU (A : Matrix) (line : List ℚ) (size : Nat) : List ℚ :=
  A.elements.foldl (fun pr e => addAt pr e.1.1 (line.getD e.1.2 0 * e.2))
    (List.replicate size 0)

/-- The sparsify-on-write step of the matrix product:
`elements[{j, h}] = product[h]` for the entries above tolerance. -/
def writeLine (j : Nat) (product : List ℚ) (acc : List Entry) : List Entry :=
  (List.range product.length).foldl (fun a h =>
    if TOL < qabs (product.getD h 0) then mapInsert (j, h) (product.getD h 0) a else a) acc

/-- `Matrix::operator*(const Matrix &)` (debug build). The dimension assert
and the debug asserts of the map constructor the result goes through
(`Matrix{rows(), matrix.columns(), elements}`: positive dimensions, keys
within bounds) are the failure cases, as is the `stop` sentinel
`(*(--elements.end())).first` of the uncompressed branches when the map is
empty (dereferencing past-the-begin is undefined there). Every loop carries
the source's own bound; in particular the row-ordered
uncompressed-times-compressed branch iterates `j < rows() - 1`. -/
def matMul (o : Order) (A B : Matrix) : Option Matrix :=
  if columns o A ≠ rows o B then none
  else
    let mkResult := fun (elts : List Entry) =>
      if 0 < rows o A ∧ 0 < columns o B
          ∧ elts.all (fun e => decide (e.1.1 < rows o A) && decide (e.1.2 < columns o B))
      then some { first := rows o A, second := columns o B, compressed := false,
                  elements := elts }
      else none
    match o with
    | .Row =>
      match A.compressed, B.compressed with
      | true, true =>
        mkResult ((List.range (rows .Row A)).foldl (fun acc j =>
          writeLine j (combineC B (rows .Row B) (denseLineC A j (columns .Row A))
            (columns .Row B)) acc) [])
      | true, false =>
        mkResult ((List.range (rows .Row A)).foldl (fun acc j =>
          writeLine j (combineRowU B (denseLineC A j (columns .Row A))
            (columns .Row B)) acc) [])
      | false, true =>
        match A.elements.getLast? with
        | none => none
        | some st =>
          mkResult ((List.range (rows .Row A - 1)).foldl (fun acc j =>
            writeLine j (combineC B (rows .Row B) (denseLineU A st.1 j (columns .Row A))
              (columns .Row B)) acc) [])
      | false, false =>
        match A.elements.getLast? with
        | none => none
        | some st =>
          mkResult ((List.range (rows .Row A)).foldl (fun acc j =>
            writeLine j (combineRowU B (denseLineU A st.1 j (columns .Row A))
              (columns .Row B)) acc) [])
    | .Column =>
      match A.compressed, B.compressed with
      | true, true =>
        mkResult ((List.range (columns .Column B)).foldl (fun acc j =>
          writeLine j (combineC A (columns .Column A) (denseLineC B j (rows .Column B))
            (rows .Column A)) acc) [])
      | true, false =>
        match B.elements.getLast? with
        | none => none
        | some st =>
          mkResult ((List.range (columns .Column B)).foldl (fun acc j =>
            writeLine j (combineC A (columns .Column A) (denseLineU B st.1 j (rows .Column B))
              (rows .Column A)) acc) [])
      | false, true =>
        mkResult ((List.range (columns .Column B)).foldl (fun acc j =>
          writeLine j (combineColU A (denseLineC B j (rows .Column B))
            (rows .Column A)) acc) [])
      | false, false =>
        match B.elements.getLast? with
        | none => none
        | some st =>
          mkResult ((List.range (columns .Column B)).foldl (fun acc j =>
            writeLine j (combineColU A (denseLineU B st.1 j (rows .Column B))
              (rows .Column A)) acc) [])

/-- The linear scan of a compressed line performed by the const call
operator (source lines 231-237); an out-of-bounds vector read (undefined
behaviour) is the failure case, falling through returns the additive
identity. -/
def lineFind (outerL : List Nat) (vals : List ℚ) (k a b : Nat) : Option ℚ :=
  match (List.range' a (b - a)).findSome? (fun i =>
      match outerL.get? i with
      | none => some none
      | some ov => if ov = k then some (vals.get? i) else none) with
  | some r => r
  | none => some 0

/-- `Matrix::operator()(j, k) const` (debug build: the bounds assert is the
first failure case). The coordinate branch reads through the mutable map's
`operator[]`, guarded by a `contains` check; the result pairs the read
value with the post-state of the matrix. -/
def callOp (M : Matrix) (j k : Nat) : Option (ℚ × Matrix) :=
  if ¬ (j < M.first ∧ k < M.second) then none
  else if ¬ M.compressed then
    (if mapContains (j, k) M.elements then
      let p := mapSubscript (j, k) M.elements
      some (p.1, { M with elements := p.2 })
    else some (0, M))
  else
    match M.inner.get? j, M.inner.get? (j + 1) with
    | some a, some b => (lineFind M.outer M.values k a b).map (fun v => (v, M))
    | _, _ => none

/-- `Matrix::operator/=` in the default sequential build: every stored value
is divided by the scalar. -/
def divAssignSeq (M : Matrix) (s : ℚ) : Matrix :=
  if ¬ M.compressed then { M with elements := M.elements.map (fun e => (e.1, e.2 / s)) }
  else { M with values := M.values.map (fun v => v / s) }

/-- `Matrix::operator/=` compiled with `PARALLEL_PACS`: the `std::transform`
applies the lambda `[scalar](T element) { return element *= scalar; }`
(source line 548), which multiplies each stored value by the scalar. The
uncompressed branch is shared with the sequential build. -/
def divAssignPar (M : Matrix) (s : ℚ) : Matrix :=
  if ¬ M.compressed then { M with elements := M.elements.map (fun e => (e.1, e.2 / s)) }
  else { M with values := M.values.map (fun v => v * s) }

/-- Positions of primary line `j` in the compressed storage. -/
def lineRange (M : Matrix) (j : Nat) : List Nat :=
  List.range' (M.inner.getD j 0) (M.inner.getD (j + 1) 0 - M.inner.getD j 0)

/-- Number of stored nonzeros at coordinates `(j, k)` of a compressed
matrix. -/
def storedAt (M : Matrix) (j k : Nat) : Nat :=
  ((lineRange M j).filter (fun p => M.outer[p]? = some k)).length

/-- Number of stored nonzeros in primary line `j` of a compressed matrix. -/
def lineNnz (M : Matrix) (j : Nat) : Nat :=
  (lineRange M j).length

/-- The entries of primary line `p` of a coordinate map. -/
def lineOf (l : List Entry) (p : Nat) : List Entry :=
  l.filter (fun e => decide (e.1.1 = p))

/-- The entries of line `p` kept by the tolerance filter of `compress`. -/
def keptOf (l : List Entry) (p : Nat) : List Entry :=
  (lineOf l p).filter (fun e => TOL < qabs e.2)

/-- Cumulative kept-entry count below line `j`: the value `compress` records
into `inner[j]`. -/
def cKept (l : List Entry) (j : Nat) : Nat :=
  ((List.range j).map (fun p => (keptOf l p).length)).sum

/-- The `std::map` representation invariant: keys strictly increasing in the
lexicographic order. -/
abbrev SortedKeys (l : List Entry) : Prop :=
  List.Pairwise (fun a b => keyLt a.1 b.1 = true) l

/-! Concrete instances used to evaluate the kernels at specific inputs. -/

/-- The 1x1 uncompressed matrix holding 1 at (0, 0). -/
def mA1 : Matrix := { first := 1, second := 1, elements := [((0, 0), 1)] }

/-- The 1x1 compressed identity. -/
def mB1c : Matrix :=
  { first := 1, second := 1, compressed := true, inner := [0, 1], outer := [0], values := [1] }

/-- The 1x1 uncompressed identity (the coordinate form of `mB1c`). -/
def mB1u : Matrix := { first := 1, second := 1, elements := [((0, 0), 1)] }

/-- A column-ordered compressed 1x2 all-ones matrix: `first = 2` columns,
`second = 1` row, so its row count is 1 and its column count is 2. -/
def mC2c : Matrix :=
  { first := 2, second := 1, compressed := true, inner := [0, 1, 2], outer := [0, 0],
    values := [1, 1] }

/-- A compressed 1x1 matrix whose only stored value is -1. -/
def mC4 : Matrix :=
  { first := 1, second := 1, compressed := true, inner := [0, 1], outer := [0], values := [-1] }

/-- A 1x1 uncompressed matrix with a supra-tolerance value stored at
(0, 0). -/
def mC5 : Matrix := { first := 1, second := 1, elements := [((0, 0), 1)] }

/-- An empty 2x3 uncompressed matrix. -/
def mC7 : Matrix := { first := 2, second := 3 }

/-- A compressed 1x1 matrix whose only stored value is 4. -/
def mC8 : Matrix :=
  { first := 1, second := 1, compressed := true, inner := [0, 1], outer := [0], values := [4] }

/-- An empty 1x1 uncompressed matrix. -/
def mEmpty1 : Matrix := { first := 1, second := 1 }

/-- The 2x2 uncompressed diagonal matrix with entries 4 and 3. -/
def mC3 : Matrix := { first := 2, second := 2, elements := [((0, 0), 4), ((1, 1), 3)] }

/-! Claim theorems. -/

/-- Claim C1: the four compression-state combinations of the sparse matrix
product must all match the dense reference product, covering every primary
line of the left operand including the last one. The code refutes this: in
the row-ordered uncompressed-times-compressed branch the line loop runs
`j < rows() - 1` and drops the last row, so multiplying the 1x1 matrix
holding 1 by the compressed 1x1 identity yields an empty result, while the
same abstract operands in the uncompressed-times-uncompressed branch (the
identity simply uncompressed) yield the correct entry 1 at (0, 0). -/
theorem c1_row_unc_comp_product_drops_last_row :
    (matMul .Row mA1 mB1c).map (fun M => M.elements) = some []
    ∧ (matMul .Row mA1 mB1u).map (fun M => M.elements) = some [((0, 0), 1)]
    ∧ uncompress mB1c = mB1u := by
  refine ⟨?_, ?_, ?_⟩ <;> with_unfolding_all decide

/-- Claim C2: the matrix-vector product must equal the dense reference in
both orderings and both compression states. The code refutes this for the
column-major compressed kernel, whose loop is bounded by `result.size()`
(the row count) instead of the column count: the column-ordered compressed
1x2 all-ones matrix times [1, 1] yields [1], while the same matrix
uncompressed yields the correct [2]. -/
theorem c2_colmajor_compressed_matvec_wrong :
    matVec .Column mC2c [1, 1] = some [1]
    ∧ matVec .Column (uncompress mC2c) [1, 1] = some [2] := by
  refine ⟨?_, ?_⟩ <;> with_unfolding_all decide

/-- Claim C4: `norm<Infinity>` must return the maximum per-line sum of
absolute values in both representations. The code refutes this in the
compressed branch, which accumulates `sum += values[k]` without `std::abs`:
on the compressed 1x1 matrix holding -1 it returns 0 (the negative line sum
loses to the initial maximum 0), while the same matrix uncompressed
returns the correct 1. -/
theorem c4_norm_infinity_ignores_sign :
    normInfinity mC4 = 0 ∧ normInfinity (uncompress mC4) = 1 := by
  refine ⟨?_, ?_⟩ <;> with_unfolding_all decide

/-- Claim C6: element-level writes on a compressed matrix fail with the
`CompressedMutation` contract violation and leave the matrix in its prior
state: `insert` asserts in-bounds coordinates first, then uncompressed
state, and fires before any mutation, so the post-state is the operand
itself. -/
theorem c6_insert_on_compressed_fails (M : Matrix) (j k : Nat) (x : ℚ)
    (hc : M.compressed = true) (hj : j < M.first) (hk : k < M.second) :
    insert M j k x = (M, some .CompressedMutation) := by
  simp [insert, hc, hj, hk]

/-- Witness for C6: inserting into the compressed 1x1 identity fails with
`CompressedMutation` and returns it unchanged. -/
theorem c6_insert_on_compressed_fails_witness :
    mB1c.compressed = true ∧ 0 < mB1c.first ∧ 0 < mB1c.second
    ∧ insert mB1c 0 0 5 = (mB1c, some .CompressedMutation) :=
  ⟨rfl, by decide, by decide,
    c6_insert_on_compressed_fails mB1c 0 0 5 rfl (by decide) (by decide)⟩

/-- Claim C7: `insert_range` must behave as the corresponding sequence of
single insertions with the same tolerance policy. The code refutes this:
its tolerance check reads `elements[j]` (the loop's row counter used as a
flat index) instead of the value being inserted, so the range insertion of
the buffer [0, 5] over the 1x2 range at the origin of an empty 2x3 matrix
stores nothing, while the claimed equivalent single insertions
`insert(0, 0, 0); insert(0, 1, 5)` store the entry 5 at (0, 1). -/
theorem c7_insert_range_wrong_tolerance_check :
    (insert_range mC7 (0, 0) (1, 2) [0, 5]).1.elements = []
    ∧ (insert (insert mC7 0 0 0).1 0 1 5).1.elements = [((0, 1), 5)] := by
  refine ⟨?_, ?_⟩ <;> with_unfolding_all decide

/-- Claim C8: the `PARALLEL_PACS` variant of `operator/=` must compute the
same result as the sequential variant (every stored value divided by the
scalar). The code refutes this: the parallel lambda multiplies
(`element *= scalar`), so dividing the compressed matrix holding 4 by 2
yields 8 in the parallel build and 2 in the sequential build. -/
theorem c8_parallel_div_assign_multiplies :
    (divAssignPar mC8 2).values = [8]
    ∧ (divAssignSeq mC8 2).values = [2]
    ∧ mC8.compressed = true := by
  refine ⟨?_, ?_, ?_⟩ <;> with_unfolding_all decide

/-- Claim C9: no coordinate-map access of `compress()` may dereference the
map's end iterator. The code refutes this: for the last primary line the
loop condition dereferences `elements.lower_bound(next)` with
`next = {first, 0}`, which is `end()` (no key has a primary component that
large), and on an empty map the iterator `it` itself starts at `end()`;
the access check is false already for a 1x1 matrix with one stored entry
and for the empty 1x1 matrix. -/
theorem c9_compress_dereferences_end :
    compressSafe mA1 = false ∧ compressSafe mEmpty1 = false := by
  refine ⟨?_, ?_⟩ <;> with_unfolding_all decide

/-- A key reported present by `std::map::contains` is found by the lookup,
so the guarded `operator[]` read never default-inserts. -/
theorem contains_lookupKey (k : Key) (l : List Entry) (h : mapContains k l = true) :
    ∃ v, lookupKey k l = some v := by
  induction l with
  | nil => simp [mapContains] at h
  | cons e rest ih =>
    by_cases he : e.1 = k
    · exact ⟨e.2, by simp [lookupKey, he]⟩
    · have hr : mapContains k rest = true := by
        simpa [mapContains, he] using h
      obtain ⟨v, hv⟩ := ih hr
      exact ⟨v, by simp [lookupKey, he, hv]⟩

/-- Claim C10: the const call operator is observationally pure: whenever
`M(j, k)` evaluates at in-bounds coordinates, the post-state equals the
prior state — the mutable coordinate map is only read through `operator[]`
under a `contains` guard, so no default element is materialized, and the
compressed branch performs reads only. -/
theorem c10_call_operator_leaves_matrix_unchanged (M : Matrix) (j k : Nat)
    (hj : j < M.first) (hk : k < M.second) :
    ∀ v M2, callOp M j k = some (v, M2) → M2 = M := by
  obtain ⟨f, s, c, el, inn, ou, va⟩ := M
  intro v M2 h
  unfold callOp at h
  rw [if_neg (by simp only [not_not]; exact ⟨hj, hk⟩)] at h
  by_cases hc : c = true
  · subst hc
    simp only [not_true_eq_false, if_false] at h
    cases hja : inn.get? j with
    | none =>
      rw [hja] at h
      cases hjb : inn.get? (j + 1) with
      | none => rw [hjb] at h; exact absurd h (by simp)
      | some b => rw [hjb] at h; exact absurd h (by simp)
    | some a =>
      rw [hja] at h
      cases hjb : inn.get? (j + 1) with
      | none => rw [hjb] at h; exact absurd h (by simp)
      | some b =>
        rw [hjb] at h
        rw [Option.map_eq_some'] at h
        obtain ⟨w, -, heq⟩ := h
        cases heq
        rfl
  · have hcf : c = false := by simpa using hc
    subst hcf
    by_cases hm : mapContains (j, k) el = true
    · obtain ⟨w, hw⟩ := contains_lookupKey (j, k) el hm
      simp only [mapSubscript, hw] at h
      simp [hm] at h
      exact h.2.symm
    · simp [hm] at h
      exact h.2.symm

/-- Witness for C10: evaluating the call operator of the 1x1 matrix holding
1 at its only coordinate returns that value and the unchanged matrix. -/
theorem c10_call_operator_witness :
    0 < mA1.first ∧ 0 < mA1.second ∧ callOp mA1 0 0 = some (1, mA1) ∧ mA1 = mA1 :=
  ⟨by decide, by decide, by with_unfolding_all decide,
    c10_call_operator_leaves_matrix_unchanged mA1 0 0 (by decide) (by decide) 1 mA1
      (by with_unfolding_all decide)⟩

/-! Order lemmas on lexicographic keys. -/

theorem keyLt_iff (a b : Key) :
    keyLt a b = true ↔ a.1 < b.1 ∨ (a.1 = b.1 ∧ a.2 < b.2) := by
  simp [keyLt]

theorem keyLt_irrefl (a : Key) : keyLt a a = false := by
  simp [keyLt]

theorem keyLt_fst_le {a b : Key} (h : keyLt a b = true) : a.1 ≤ b.1 := by
  rw [keyLt_iff] at h
  omega

theorem keyLt_of_fst_lt {a b : Key} (h : a.1 < b.1) : keyLt a b = true :=
  (keyLt_iff a b).2 (Or.inl h)

theorem keyLt_line_iff (a : Key) (p : Nat) : keyLt a (p, 0) = true ↔ a.1 < p := by
  rw [keyLt_iff]
  omega

/-! Equation lemmas for the iterator-walk definitions. -/

theorem lowerB_nil (k : Key) : lowerB k [] = [] := rfl

theorem lowerB_cons (k : Key) (e : Entry) (rest : List Entry) :
    lowerB k (e :: rest) = if keyLt e.1 k = true then lowerB k rest else e :: rest := rfl

theorem scanLine_cons_nil (e : Entry) (rest : List Entry) :
    scanLine [] (e :: rest) = e :: scanLine [] rest := rfl

theorem scanLine_cons_cons (b e : Entry) (t rest : List Entry) :
    scanLine (b :: t) (e :: rest)
      = if keyLt e.1 b.1 = true then e :: scanLine (b :: t) rest else [] := rfl

/-- `lower_bound` leaves a list alone when no key is below the bound. -/
theorem lowerB_eq_self {k : Key} {l : List Entry}
    (h : ∀ e ∈ l, ¬ keyLt e.1 k = true) : lowerB k l = l := by
  cases l with
  | nil => rfl
  | cons e rest =>
    rw [lowerB_cons, if_neg (h e (List.mem_cons_self e rest))]

/-- The head of a nonempty `lower_bound` result is not below the bound. -/
theorem lowerB_head_ge {k : Key} {l t : List Entry} {b : Entry}
    (h : lowerB k l = b :: t) : keyLt b.1 k = false := by
  induction l with
  | nil => exact absurd h (by simp [lowerB_nil])
  | cons e rest ih =>
    rw [lowerB_cons] at h
    by_cases he : keyLt e.1 k = true
    · rw [if_pos he] at h
      exact ih h
    · rw [if_neg he] at h
      cases h
      simpa using he

/-- The loop of `compress` over one primary line collects exactly that
line's entries: starting from `lower_bound({p, 0})` and stopping against
`lower_bound({p+1, 0})` filters the sorted map down to the keys with
primary component `p`. -/
theorem scanLine_filter (p : Nat) (l : List Entry) (hs : SortedKeys l) :
    scanLine (lowerB (p + 1, 0) l) (lowerB (p, 0) l) = lineOf l p := by
  induction l with
  | nil => rfl
  | cons e rest ih =>
    obtain ⟨hhead, htail⟩ := List.pairwise_cons.1 hs
    rcases Nat.lt_trichotomy e.1.1 p with hlt | heq | hgt
    · have h1 : keyLt e.1 (p, 0) = true := (keyLt_line_iff _ _).2 hlt
      have h2 : keyLt e.1 (p + 1, 0) = true := (keyLt_line_iff _ _).2 (by omega)
      rw [lowerB_cons (p, 0) e rest, if_pos h1, lowerB_cons (p + 1, 0) e rest, if_pos h2]
      rw [lineOf, List.filter_cons_of_neg (by simp; omega)]
      exact ih htail
    · have h1 : ¬ keyLt e.1 (p, 0) = true := by rw [keyLt_line_iff]; omega
      have h2 : keyLt e.1 (p + 1, 0) = true := (keyLt_line_iff _ _).2 (by omega)
      rw [lowerB_cons (p, 0) e rest, if_neg h1, lowerB_cons (p + 1, 0) e rest, if_pos h2]
      have hrest : lowerB (p, 0) rest = rest := lowerB_eq_self (fun f hf => by
        have hle := keyLt_fst_le (hhead f hf)
        rw [keyLt_line_iff]
        omega)
      have ihr := ih htail
      rw [hrest] at ihr
      rw [lineOf, List.filter_cons_of_pos (by simp [heq])]
      cases hb : lowerB (p + 1, 0) rest with
      | nil =>
        rw [hb] at ihr
        rw [scanLine_cons_nil, ihr]
        rfl
      | cons b t =>
        rw [hb] at ihr
        have hbge : keyLt b.1 (p + 1, 0) = false := lowerB_head_ge hb
        have hlte : keyLt e.1 b.1 = true := by
          apply keyLt_of_fst_lt
          have h3 : ¬ b.1.1 < p + 1 := by
            rw [← keyLt_line_iff b.1 (p + 1)]
            simp [hbge]
          omega
        rw [scanLine_cons_cons, if_pos hlte, ihr]
        rfl
    · have h1 : ¬ keyLt e.1 (p, 0) = true := by rw [keyLt_line_iff]; omega
      have h2 : ¬ keyLt e.1 (p + 1, 0) = true := by rw [keyLt_line_iff]; omega
      rw [lowerB_cons (p, 0) e rest, if_neg h1, lowerB_cons (p + 1, 0) e rest, if_neg h2]
      rw [scanLine_cons_cons, if_neg (by simp [keyLt_irrefl])]
      rw [lineOf, List.filter_cons_of_neg (by simp; omega)]
      symm
      rw [List.filter_eq_nil_iff]
      intro f hf
      have hle := keyLt_fst_le (hhead f hf)
      simp
      omega

/-- Reading a `map` over `range` at an in-bounds index gives the function
value. -/
theorem getD_map_range {α : Type _} (g : Nat → α) (m i : Nat) (d : α) (hi : i < m) :
    ((List.range m).map g).getD i d = g i := by
  rw [List.getD_eq_getElem?_getD, List.getElem?_map, List.getElem?_range hi]
  rfl

/-- `Matrix::compress` on a sorted uncompressed matrix produces the
per-line filtered bodies: the scanned lines are the map's true lines. -/
theorem compress_eq (M : Matrix) (hM : M.compressed = false) (hs : SortedKeys M.elements) :
    compress M = { M with
      compressed := true
      elements := []
      inner := (List.range (M.first + 1)).map (cKept M.elements)
      outer := ((List.range M.first).map
        (fun p => (keptOf M.elements p).map (fun e => e.1.2))).flatten
      values := ((List.range M.first).map
        (fun p => (keptOf M.elements p).map (fun e => e.2))).flatten } := by
  have hscan : ∀ p, (scanLine (lowerB (p + 1, 0) M.elements) (lowerB (p, 0) M.elements)).filter
      (fun e => decide (TOL < qabs e.2)) = keptOf M.elements p := fun p => by
    rw [scanLine_filter p M.elements hs]
    rfl
  unfold compress
  rw [if_neg (by simp [hM])]
  simp only [hscan]
  rfl

/-! Block reads into the flattened compressed bodies. -/

/-- One step of the cumulative kept count. -/
theorem cKept_succ (l : List Entry) (j : Nat) :
    cKept l (j + 1) = cKept l j + (keptOf l j).length := by
  unfold cKept
  rw [List.range_succ, List.map_append, List.sum_append]
  simp

/-- Reading the flattened per-line blocks at an offset into block `j` gives
that block's element. -/
theorem flatten_block_getElem {α : Type _} (g : Nat → List α) (n j i : Nat) (hj : j < n)
    (hi : i < (g j).length) :
    (((List.range n).map g).flatten)[((List.range j).map (fun p => (g p).length)).sum + i]?
      = (g j)[i]? := by
  have hsplit : List.range n = List.range j ++ List.range' j (n - j) := by
    have h2 : List.range' j (n - j) = (List.range (n - j)).map (j + ·) :=
      List.range'_eq_map_range j (n - j)
    rw [h2, ← List.range_add]
    congr 1
    omega
  rw [hsplit, List.map_append, List.flatten_append]
  have hlenA : (((List.range j).map g).flatten).length
      = ((List.range j).map (fun p => (g p).length)).sum := by
    rw [List.length_flatten, List.map_map]
    rfl
  rw [List.getElem?_append_right (by rw [hlenA]; exact Nat.le_add_right _ _), hlenA,
    Nat.add_sub_cancel_left]
  obtain ⟨d, hd⟩ : ∃ d, n - j = d + 1 := ⟨n - j - 1, by omega⟩
  have hrange : List.range' j (n - j) = j :: List.range' (j + 1) d := by
    rw [hd, List.range'_succ]
  rw [hrange, List.map_cons, List.flatten_cons, List.getElem?_append_left hi]

/-- A filter over an index range whose predicate is false at every offset
is empty. -/
theorem filter_range_eq_nil {p : Nat → Bool} :
    ∀ (m s : Nat), (∀ i, i < m → p (s + i) = false) →
      (List.range' s m).filter p = [] := by
  intro m
  induction m with
  | zero => intro s _; rfl
  | succ m ih =>
    intro s h
    rw [List.range'_succ, List.filter_cons_of_neg (by simpa using h 0 (by omega))]
    apply ih
    intro i hi
    have := h (i + 1) (by omega)
    simpa [Nat.add_assoc, Nat.add_comm 1 i] using this

/-- Claim C5 as stated is refuted by the code: on the 1x1 matrix already
holding the supra-tolerance value 1 at (0, 0), inserting the sub-tolerance
value 0 at (0, 0) and compressing leaves one stored nonzero at (0, 0), not
zero — the debug-build `insert` silently drops a sub-tolerance value
instead of overwriting, so the prior entry survives compression. -/
theorem c5_tolerance_claim_counterexample :
    mC5.compressed = false ∧ 0 < mC5.first ∧ 0 < mC5.second ∧ ¬ TOL < qabs 0
    ∧ ¬ storedAt (compress (insert mC5 0 0 0).1) 0 0 = 0 := by
  refine ⟨rfl, by decide, by decide, ?_, ?_⟩ <;> with_unfolding_all decide

/-- Claim C5, amended: the conclusion holds provided the matrix does not
already store a supra-tolerance value at the target coordinates. Inserting
a sub-tolerance value at in-bounds (j, k) of a sorted uncompressed matrix
and compressing leaves zero stored nonzeros at (j, k); and if every stored
value of line j is sub-tolerance, the whole compressed line j is empty. -/
theorem c5_tolerance_filtering_amended (M : Matrix) (j k : Nat) (x : ℚ)
    (hM : M.compressed = false) (hs : SortedKeys M.elements)
    (hj : j < M.first) (hk : k < M.second)
    (hx : ¬ TOL < qabs x)
    (hstored : ∀ v, ((j, k), v) ∈ M.elements → ¬ TOL < qabs v) :
    storedAt (compress (insert M j k x).1) j k = 0
    ∧ ((∀ e ∈ M.elements, e.1.1 = j → ¬ TOL < qabs e.2) →
        lineNnz (compress (insert M j k x).1) j = 0) := by
  have hins : (insert M j k x).1 = M := by
    simp [insert, hj, hk, hM, hx]
  rw [hins, compress_eq M hM hs]
  simp only [storedAt, lineRange, lineNnz]
  rw [getD_map_range (cKept M.elements) (M.first + 1) j 0 (by omega),
    getD_map_range (cKept M.elements) (M.first + 1) (j + 1) 0 (by omega),
    cKept_succ, Nat.add_sub_cancel_left]
  have houterlen : ∀ p, ((keptOf M.elements p).map (fun e => e.1.2)).length
      = (keptOf M.elements p).length := fun p => List.length_map _ _
  constructor
  · rw [filter_range_eq_nil (keptOf M.elements j).length (cKept M.elements j) ?hfalse]
    · rfl
    case hfalse =>
      intro i hi
      have hblock := flatten_block_getElem (fun p => (keptOf M.elements p).map (fun e => e.1.2))
        M.first j i hj (by rw [houterlen]; exact hi)
      have hsum : ((List.range j).map
          (fun p => ((keptOf M.elements p).map (fun e => e.1.2)).length)).sum
          = cKept M.elements j := by
        unfold cKept
        congr 1
        apply List.map_congr_left
        intro p _
        exact houterlen p
      rw [hsum] at hblock
      rw [decide_eq_false_iff_not]
      rw [hblock, List.getElem?_map, List.getElem?_eq_getElem hi]
      intro hcontra
      simp only [Option.map_some', Option.some.injEq] at hcontra
      set E := (keptOf M.elements j)[i] with hE
      have hmemKept : E ∈ keptOf M.elements j := List.getElem_mem hi
      have hmemLine : E ∈ lineOf M.elements j := List.mem_of_mem_filter hmemKept
      have hmem : E ∈ M.elements := List.mem_of_mem_filter hmemLine
      have hfst : E.1.1 = j := by simpa using List.of_mem_filter hmemLine
      have htolE : TOL < qabs E.2 := by simpa using List.of_mem_filter hmemKept
      have hkeyE : E.1 = (j, k) := Prod.ext hfst hcontra
      have : ((j, k), E.2) ∈ M.elements := by
        rw [← hkeyE]
        exact hmem
      exact hstored E.2 this htolE
  · intro hline
    have hkept : keptOf M.elements j = [] := by
      rw [keptOf, List.filter_eq_nil_iff]
      intro e he
      have hfst : e.1.1 = j := by simpa using List.of_mem_filter he
      have hmem : e ∈ M.elements := List.mem_of_mem_filter he
      simpa using hline e hmem hfst
    rw [hkept]
    rfl

/-- Witness for the amended C5: inserting 0 at the empty coordinate (1, 0)
of the diagonal matrix and compressing stores nothing there. -/
theorem c5_amended_witness :
    mC3.compressed = false ∧ 1 < mC3.first ∧ 0 < mC3.second ∧ ¬ TOL < qabs 0
    ∧ storedAt (compress (insert mC3 1 0 0).1) 1 0 = 0 :=
  ⟨rfl, by decide, by decide, by with_unfolding_all decide,
    (c5_tolerance_filtering_amended mC3 1 0 0 rfl (by decide) (by decide) (by decide)
      (by with_unfolding_all decide) (by intro v hv; simp [mC3] at hv)).1⟩

/-- `lower_bound` returns the end iterator when every key is below the
bound. -/
theorem lowerB_eq_nil {k : Key} {l : List Entry}
    (h : ∀ e ∈ l, keyLt e.1 k = true) : lowerB k l = [] := by
  induction l with
  | nil => rfl
  | cons e rest ih =>
    rw [lowerB_cons, if_pos (h e (List.mem_cons_self e rest))]
    exact ih (fun f hf => h f (List.mem_cons_of_mem _ hf))

/-- A line scan whose bound iterator is `end()` dereferences the
past-the-end iterator on its very first condition evaluation. -/
theorem scanSafe_bound_nil (it : List Entry) : scanSafe [] it = false := by
  cases it <;> rfl

/-- Claim C3: the compress-then-uncompress round trip cannot hold of the
program as written. On every uncompressed matrix with a positive primary
dimension and in-range keys - the entire input class of the round-trip
claim - the loop condition of `compress` dereferences
`elements.lower_bound(next)` with `next = {first, 0}`, which is the end
iterator since no stored key reaches primary index `first`, while
processing the last primary line; the loop that builds the compressed body
therefore executes undefined behaviour before any round trip can complete.
The spec's round-trip property (sections 4.3 and 8) is the intent; this
dereference is the defect. -/
theorem c3_round_trip_blocked_by_end_deref (M : Matrix)
    (h1 : 0 < M.first) (hbound : ∀ e ∈ M.elements, e.1.1 < M.first) :
    compressSafe M = false := by
  have hb : lowerB (M.first - 1 + 1, 0) M.elements = [] := by
    apply lowerB_eq_nil
    intro e he
    rw [keyLt_line_iff]
    have := hbound e he
    omega
  have hfail : scanSafe (lowerB (M.first - 1 + 1, 0) M.elements)
      (lowerB (M.first - 1, 0) M.elements) = false := by
    rw [hb]
    exact scanSafe_bound_nil _
  unfold compressSafe
  rw [List.all_eq_false]
  exact ⟨M.first - 1, List.mem_range.2 (by omega), by simp [hfail]⟩

/-- Witness for C3: the 2x2 diagonal matrix with entries 4 and 3 - a
minimal instance of the round-trip claim's hypotheses, all stored values
above tolerance and keys in range - already makes `compress` dereference
the end iterator. -/
theorem c3_round_trip_blocked_witness :
    0 < mC3.first ∧ mC3.compressed = false ∧ compressSafe mC3 = false :=
  ⟨by decide, rfl, c3_round_trip_blocked_by_end_deref mC3 (by decide) (by decide)⟩

end Pacs
